import Mathlib

/-!
Verification of the bounded content-addressed cache and of three integration
handlers of the lung-cancer-detection repository (a mindsdb snapshot).

The cache implementation (`mindsdb/utilities/cache.py`) is not part of the
visible sources — only its test suite (`tests/unit/test_cache.py`) is — so the
cache data model below is modelled from the specification.  The Elasticsearch,
Webz and NewsAPI handlers are embedded from their Python sources.
-/

set_option autoImplicit false

namespace LungCancer

/-! ## Tabular datasets and the content fingerprint -/

/-- Modelled from the spec: a dataset cell.  The spec requires the fingerprint
to "handle non-primitive cell types (embedded sequences, embedded mappings,
timestamps) by serializing them to a canonical textual form"; primitive cells
(ints, floats, strings, timestamps) are represented by their canonical textual
form, and sequences and mappings are kept structured. -/
inductive Cell where
  | prim : String → Cell
  | seq : List Cell → Cell
  | map : List (String × Cell) → Cell

/-- Modelled from the spec: a tabular dataset — "ordered sequence of named
columns, each an ordered sequence of scalar or structured values".  The
`ident` field stands for the in-memory object identity of a pandas DataFrame,
which content equality and the fingerprint must ignore. -/
structure DataFrame where
  ident : Nat
  cols : List String
  rows : List (List Cell)

/-- Modelled from the spec: canonical textual serialization of one cell. -/
def serializeCell : Cell → String
  | .prim s => "p:" ++ s
  | .seq xs => "[" ++ String.intercalate ","
      (xs.attach.map (fun c => serializeCell c.1)) ++ "]"
  | .map kvs => "\x7b" ++ String.intercalate ","
      (kvs.attach.map (fun kv => kv.1.1 ++ ":" ++ serializeCell kv.1.2)) ++ "\x7d"
decreasing_by
  all_goals first
  | (have hx := List.sizeOf_lt_of_mem c.2
     simp only [Cell.seq.sizeOf_spec]
     omega)
  | (have h1 := List.sizeOf_lt_of_mem kv.2
     have h2 : sizeOf kv.1.2 < sizeOf kv.1 := by
       obtain ⟨a, b⟩ := kv.1
       simp
     simp only [Cell.map.sizeOf_spec]
     omega)

/-- Modelled from the spec: canonical serialization of a whole dataset:
column labels in order, then every row's cells in order. -/
def serializeDataFrame (df : DataFrame) : String :=
  String.intercalate "|" df.cols ++ "#" ++
    String.intercalate ";" (df.rows.map (fun r =>
      String.intercalate "," (r.map serializeCell)))

/-- Modelled from the spec: a deterministic digest of a string, standing for
the hash used by `dataframe_checksum`.  The exact digest is opaque to the
spec; any pure function of the canonical serialization satisfies it. -/
def stringDigest (s : String) : Nat :=
  s.foldl (fun h c => (h * 31 + c.toNat) % (2 ^ 64)) 5381

/-- Modelled from the spec: `dataframe_checksum` (the fingerprint function),
"a digest over a canonical serialization of the dataset, not over the
dataset's in-memory identity". -/
def dataframe_checksum (df : DataFrame) : String :=
  toString (stringDigest (serializeDataFrame df))

/-- Content equality of datasets: same column labels in the same order, same
rows and cell values in the same order — object identity ignored. -/
def contentEq (d1 d2 : DataFrame) : Prop :=
  d1.cols = d2.cols ∧ d1.rows = d2.rows

/-! ## The bounded FIFO cache -/

/-- Modelled from the spec: a cache instance.  "A Cache is constructed with a
namespace and max_size"; it "owns a bounded ordered collection of Entry
records for its namespace".  `entries` is kept in insertion order, oldest
first; the position in the list is the insertion-order marker. -/
structure Cache where
  ns : String
  maxSize : Nat
  entries : List (String × DataFrame)

/-- Modelled from the spec: a freshly constructed cache with no entries. -/
def mkCache (ns : String) (maxSize : Nat) : Cache :=
  { ns := ns, maxSize := maxSize, entries := [] }

/-- Modelled from the spec: the unbounded insertion step of `set`.
"Overwriting an existing key updates its value but does NOT reset its
insertion-order position"; a new key is appended at the back (newest). -/
def insertRaw (c : Cache) (key : String) (df : DataFrame) :
    List (String × DataFrame) :=
  if c.entries.any (fun p => p.1 == key) then
    c.entries.map (fun p => if p.1 == key then (key, df) else p)
  else
    c.entries ++ [(key, df)]

/-- Modelled from the spec: `set(key, dataset)` — insert, then "if the
namespace now holds more than max_size entries, evict the oldest entries (by
insertion order) until the count is at or below max_size".  Oldest entries
are at the front of the list, so eviction drops from the front. -/
def Cache.set (c : Cache) (key : String) (df : DataFrame) : Cache :=
  let inserted := insertRaw c key df
  { c with entries := inserted.drop (inserted.length - c.maxSize) }

/-- Modelled from the spec: `get(key)` returns the stored dataset, or the
absent sentinel (`none`, Python `None`) "if the key was never set, was
deleted, or was evicted". -/
def Cache.get (c : Cache) (key : String) : Option DataFrame :=
  (c.entries.find? (fun p => p.1 == key)).map (fun p => p.2)

/-- Modelled from the spec: `delete(key)` — "removes the entry if present;
no error if absent (idempotent)". -/
def Cache.delete (c : Cache) (key : String) : Cache :=
  { c with entries := c.entries.filter (fun p => !(p.1 == key)) }

/-- One cache operation, as exercised by the test suite. -/
inductive Op where
  | set : String → DataFrame → Op
  | get : String → Op
  | delete : String → Op

/-- The state transition of one operation (`get` is read-only). -/
def applyOp (c : Cache) : Op → Cache
  | .set k d => c.set k d
  | .get _ => c
  | .delete k => c.delete k

/-- Run a sequence of operations from a starting state. -/
def runOps (c : Cache) (ops : List Op) : Cache :=
  ops.foldl applyOp c

/-- Run `set` on every (key, dataset) pair of a list in order. -/
def setAll (c : Cache) (ps : List (String × DataFrame)) : Cache :=
  ps.foldl (fun acc p => acc.set p.1 p.2) c

/-! ## Elasticsearch handler (`elasticsearch_handler.py`) -/

/-- Connection state of an `ElasticsearchHandler`: the `is_connected` flag and
`conn`, the `self.connection` field — `none` when no client object was ever
built, `some b` for a client object that is open (`b = true`) or has been
closed (`b = false`). -/
structure ESState where
  is_connected : Bool
  conn : Option Bool
  deriving DecidableEq, Repr

/-- The method `ElasticsearchHandler.connect`.  `ok` is whether building the
`Elasticsearch(...)` client succeeds; the second component is `true` when
the call returns and `false` when it raises (leaving the state intact). -/
def esConnect (s : ESState) (ok : Bool) : ESState × Bool :=
  if s.is_connected then (s, true)
  else if ok then ({ is_connected := true, conn := some true }, true)
  else (s, false)

/-- The method `ElasticsearchHandler.disconnect`: returns immediately when not
connected, otherwise closes the client and clears the flag. -/
def esDisconnect (s : ESState) : ESState :=
  if s.is_connected = false then s
  else { is_connected := false, conn := s.conn.map (fun _ => false) }

/-- The method `ElasticsearchHandler.check_connection`: records `need_to_close` before
probing, calls `connect`, and in the `finally` block disconnects a probe
connection on success and clears a stale flag on failure.  Returns the new
state and `response.success`. -/
def esCheckConnection (s : ESState) (ok : Bool) : ESState × Bool :=
  let need_to_close := s.is_connected = false
  let probed := esConnect s ok
  let s1 := probed.1
  let success := probed.2
  let s2 := if success ∧ need_to_close then esDisconnect s1 else s1
  let s3 := if ¬success ∧ s2.is_connected then { s2 with is_connected := false } else s2
  (s3, success)

/-! ## Webz handler (`webz_handler.py`) -/

/-- The pagination loop of `WebzHandler.call_webz_api`.  `size` is
`count_results` (the caller's `params['size']`), `data` the rows parsed so
far, and `pages` the successive `output['posts']` lists the opaque client
returns (first from `client.query`, then from `client.get_next`); each post
is parsed into a row by `_parse_post` (`parse`).  The requested page size
(`params['size'] = min(left, max_page_size)`) only influences what the
opaque client replies, which the `pages` list already fixes.  The result is
`some rows` when the loop breaks and returns normally, and `none` when the
client runs out of pages before the loop breaks (the call does not return
normally). -/
def webzCollect {α β : Type} (parse : α → β) (size : Int) :
    List β → List (List α) → Option (List β)
  | data, pages =>
    let left : Int := size - data.length
    if left = 0 then some data
    else if left < 0 then some (data.take ((data.length : Int) + left).toNat)
    else match pages with
      | [] => none
      | page :: rest => webzCollect parse size (data ++ page.map parse) rest

/-- A Python exception of the kinds these handlers raise. -/
inductive PyErr where
  | valueError : String → PyErr
  | notImplementedError : String → PyErr
  deriving DecidableEq, Repr

/-- The method `WebzHandler.call_webz_api`: rejects unsupported method names with
`NotImplementedError`, then runs the pagination loop.  When `params` has no
`'size'` entry (`size = none`) the loop has no break statement, so the call
never returns normally (`Except.ok none`). -/
def call_webz_api {α β : Type} (parse : α → β) (method_name : String)
    (size : Option Int) (pages : List (List α)) :
    Except PyErr (Option (List β)) :=
  if method_name ≠ "filterWebContent" ∧ method_name ≠ "reviewFilter" then
    .error (.notImplementedError
      ("Method name " ++ method_name ++ " not supported by Webz API Handler"))
  else
    match size with
    | some s => .ok (webzCollect parse s [] pages)
    | none => .ok none

/-! ## NewsAPI handler (`newsapi_handler.py`) -/

/-- A value stored in the `params` dict built by
`NewsAPIArticleTable.select`: a string or an int. -/
inductive PVal where
  | s : String → PVal
  | i : Int → PVal
  deriving DecidableEq, Repr

/-- Python dict assignment `params[k] = v` on a dict kept as an ordered
association list. -/
def setParam (ps : List (String × PVal)) (k : String) (v : PVal) :
    List (String × PVal) :=
  if ps.any (fun p => p.1 == k) then
    ps.map (fun p => if p.1 == k then (k, v) else p)
  else
    ps ++ [(k, v)]

/-- Abstraction of `urllib.parse.quote_plus` (an external library function):
some injective-on-spaces textual transformation; only its purity matters
here. -/
def urllib_quote_plus (text : String) : String :=
  text.map (fun ch => if ch = ' ' then '+' else ch)

/-- Python's `str.split(sep)` for a one-character separator, over the
character list. -/
def splitChars (sep : Char) : List Char → List (List Char)
  | [] => [[]]
  | c :: rest =>
    let r := splitChars sep rest
    if c = sep then [] :: r
    else
      match r with
      | [] => [[c]]
      | g :: gs => (c :: g) :: gs

/-- Python's `arg2.split(",")`-style splitting of a string. -/
def pySplit (sep : Char) (t : String) : List String :=
  (splitChars sep t.data).map (fun cs => String.mk cs)

/-- The `publishedAt` branch of the conditions loop: the two successive
`if` statements mapping the comparison operator to `from`/`to` parameters
(note the source's `if`/`if`-`elif` shape: `Gt`/`GtE` set `from`, then
independently `Lt`/`LtE` set `to` and only otherwise `Eq` sets both). -/
def publishedAtUpdate (op arg2 : String) (ps : List (String × PVal)) :
    List (String × PVal) :=
  let ps1 := if op = "Gt" ∨ op = "GtE" then setParam ps "from" (.s arg2) else ps
  if op = "Lt" ∨ op = "LtE" then setParam ps1 "to" (.s arg2)
  else if op = "Eq" then setParam (setParam ps1 "from" (.s arg2)) "to" (.s arg2)
  else ps1

/-- One iteration of the `for op, arg1, arg2 in conditions` loop of
`NewsAPIArticleTable.select`: the if/elif chain on `arg1`, raising
`ValueError` when a `sources` value splits on "," into more than 20 items. -/
def applyCondition (ps : List (String × PVal)) (cond : String × String × String) :
    Except PyErr (List (String × PVal)) :=
  let op := cond.1
  let arg1 := cond.2.1
  let arg2 := cond.2.2
  if arg1 = "query" then
    .ok (setParam ps "q" (.s (urllib_quote_plus arg2)))
  else if arg1 = "sources" then
    if 20 < (pySplit ',' arg2).length then
      .error (.valueError "The number of items it sources should be 20 or less")
    else
      .ok (setParam ps arg1 (.s arg2))
  else if arg1 = "publishedAt" then
    .ok (publishedAtUpdate op arg2 ps)
  else
    .ok (setParam ps arg1 (.s arg2))

/-- The whole conditions loop of `NewsAPIArticleTable.select`, starting from
the empty `params` dict. -/
def build_params (conditions : List (String × String × String)) :
    Except PyErr (List (String × PVal)) :=
  conditions.foldlM applyCondition []

/-- The `query.limit` handling of `NewsAPIArticleTable.select` (Python
`divmod(limit, 100)`; both divisions agree with Python here since the branch
requires `100 < l`). -/
def apply_limit (ps : List (String × PVal)) (limit : Option Int) :
    List (String × PVal) :=
  match limit with
  | some l =>
    if 100 < l then
      let page := l / 100
      let page_size0 := l % 100
      let page_size := if page_size0 = 0 then 100 else page_size0
      setParam (setParam ps "page" (.i page)) "page_size" (.i page_size)
    else
      setParam (setParam ps "page_size" (.i l)) "page" (.i 1)
  | none => setParam (setParam ps "page_size" (.i 100)) "page" (.i 1)

/-- The `query.order_by` handling of `NewsAPIArticleTable.select`. -/
def apply_order_by (ps : List (String × PVal)) (order_by : List String) :
    Except PyErr (List (String × PVal)) :=
  match order_by with
  | [] => .ok ps
  | [f] =>
    if f ≠ "relevancy" ∧ f ≠ "publishedAt" then
      .error (.notImplementedError "Not supported ordering by this field")
    else
      .ok (setParam ps "sort_by" (.s f))
  | _ => .error (.valueError "Multiple order by condition is not supported by the API")

/-- The method `NewsAPIArticleTable.select` up to the API call: build `params` from the
WHERE conditions, apply limit and order-by handling, then hand `params` to
`self.handler.call_application_api` (`api`).  The projection of the returned
frame onto the selected columns happens after the call and is outside this
slice. -/
def NewsAPIArticleTable_select {ρ : Type}
    (conditions : List (String × String × String)) (limit : Option Int)
    (order_by : List String) (api : List (String × PVal) → ρ) :
    Except PyErr ρ := do
  let ps ← build_params conditions
  let ps1 := apply_limit ps limit
  let ps2 ← apply_order_by ps1 order_by
  pure (api ps2)

/-! ## Helper lemmas -/

/-- The update function of `insertRaw` never changes an entry's key. -/
lemma updFst (k : String) (d : DataFrame) (p : String × DataFrame) :
    ((if p.1 == k then (k, d) else p) : String × DataFrame).1 = p.1 := by
  by_cases h : p.1 == k
  · simp only [if_pos h]
    exact (eq_of_beq h).symm
  · simp only [if_neg h]

/-- A `get` misses exactly when no resident entry carries the key. -/
lemma get_eq_none_iff (c : Cache) (k : String) :
    c.get k = none ↔ ∀ p ∈ c.entries, ¬(p.1 == k) := by
  simp [Cache.get, List.find?_eq_none]

/-- A missed key stays missed across any operation that is not a `set` of
that key. -/
lemma get_none_step (c : Cache) (k : String) (op : Op)
    (hop : ∀ d, op ≠ Op.set k d) (h : c.get k = none) :
    (applyOp c op).get k = none := by
  match op with
  | .get k' => exact h
  | .delete k' =>
    rw [get_eq_none_iff] at h ⊢
    intro p hp
    exact h p (List.mem_of_mem_filter hp)
  | .set k' d =>
    have hk : ¬(k' = k) := fun e => hop d (by rw [e])
    rw [get_eq_none_iff] at h ⊢
    intro p hp
    have hp' : p ∈ insertRaw c k' d :=
      List.mem_of_mem_drop hp
    unfold insertRaw at hp'
    split at hp'
    · obtain ⟨q, hq, rfl⟩ := List.mem_map.mp hp'
      by_cases hqk : q.1 == k'
      · simp only [if_pos hqk]
        simpa using hk
      · simp only [if_neg hqk]
        exact h q hq
    · rcases List.mem_append.mp hp' with hq | hq
      · exact h _ hq
      · have : p = (k', d) := by simpa using hq
        subst this
        simpa using hk

/-- A missed key stays missed across a whole run without a `set` of it. -/
lemma runOps_get_none (k : String) :
    ∀ (ops : List Op) (c : Cache), c.get k = none →
      (∀ d, Op.set k d ∉ ops) → (runOps c ops).get k = none := by
  intro ops
  induction ops with
  | nil => intro c h _; simpa [runOps] using h
  | cons op rest ih =>
    intro c h hops
    have hstep : (applyOp c op).get k = none := by
      apply get_none_step c k op _ h
      intro d hd
      exact hops d (by rw [hd]; exact List.mem_cons_self _ _)
    have hrest : ∀ d, Op.set k d ∉ rest := fun d hd =>
      hops d (List.mem_cons_of_mem _ hd)
    simpa [runOps] using ih (applyOp c op) hstep hrest

/-- A `set` always leaves at most `maxSize` resident entries. -/
lemma set_length_le (c : Cache) (k : String) (d : DataFrame) :
    (c.set k d).entries.length ≤ c.maxSize := by
  simp only [Cache.set, List.length_drop]
  omega

/-- Every operation preserves the size bound. -/
lemma applyOp_length_le (c : Cache) (op : Op)
    (h : c.entries.length ≤ c.maxSize) :
    (applyOp c op).entries.length ≤ c.maxSize := by
  cases op with
  | set k d => exact set_length_le c k d
  | get k => exact h
  | delete k => exact le_trans (List.length_filter_le _ _) h

/-- No operation changes the configured bound. -/
lemma applyOp_maxSize (c : Cache) (op : Op) :
    (applyOp c op).maxSize = c.maxSize := by
  cases op <;> rfl

/-- The size bound is an invariant of whole runs. -/
lemma runOps_length_le (ops : List Op) :
    ∀ c : Cache, c.entries.length ≤ c.maxSize →
      (runOps c ops).entries.length ≤ c.maxSize := by
  induction ops with
  | nil => intro c h; simpa [runOps] using h
  | cons op rest ih =>
    intro c h
    have step := applyOp_length_le c op h
    rw [← applyOp_maxSize c op] at step
    have := ih (applyOp c op) step
    rw [applyOp_maxSize c op] at this
    simpa [runOps] using this

/-- All entries carrying key `k` hold the dataset `d`. -/
def keyBound (k : String) (d : DataFrame) (c : Cache) : Prop :=
  ∀ p ∈ c.entries, (p.1 == k) = true → p.2 = d

/-- Right after `set k d`, every entry with key `k` holds `d`. -/
lemma keyBound_insert (c : Cache) (k : String) (d : DataFrame) :
    keyBound k d (c.set k d) := by
  intro p hp hkey
  have hp' : p ∈ insertRaw c k d := List.mem_of_mem_drop hp
  unfold insertRaw at hp'
  split at hp'
  · obtain ⟨q, hq, rfl⟩ := List.mem_map.mp hp'
    by_cases hqk : q.1 == k
    · have hqe := eq_of_beq hqk
      simp [hqe]
    · simp only [if_neg hqk] at hkey
      exact absurd hkey (by simpa using hqk)
  · next hany =>
    rcases List.mem_append.mp hp' with hq | hq
    · have hfalse : (c.entries.any fun p => p.1 == k) = false := by
        rw [← Bool.not_eq_true]
        exact hany
      exact absurd hkey ((List.any_eq_false.mp hfalse) p hq)
    · have : p = (k, d) := by simpa using hq
      rw [this]

/-- The predicate `keyBound` survives any operation that is not a `set` of the key. -/
lemma keyBound_step (c : Cache) (k : String) (d : DataFrame) (op : Op)
    (hop : ∀ d', op ≠ Op.set k d') (h : keyBound k d c) :
    keyBound k d (applyOp c op) := by
  cases op with
  | get k' => exact h
  | delete k' =>
    intro p hp hkey
    exact h p (List.mem_of_mem_filter hp) hkey
  | set k' d' =>
    have hk : ¬(k' = k) := fun e => hop d' (by rw [e])
    intro p hp hkey
    have hp' : p ∈ insertRaw c k' d' := List.mem_of_mem_drop hp
    unfold insertRaw at hp'
    split at hp'
    · obtain ⟨q, hq, rfl⟩ := List.mem_map.mp hp'
      by_cases hqk : q.1 == k'
      · simp only [if_pos hqk] at hkey
        exact absurd (eq_of_beq hkey) hk
      · simp only [if_neg hqk] at hkey ⊢
        exact h q hq hkey
    · rcases List.mem_append.mp hp' with hq | hq
      · exact h p hq hkey
      · have : p = (k', d') := by simpa using hq
        rw [this] at hkey
        exact absurd (eq_of_beq hkey) hk

/-- The predicate `keyBound` survives whole runs without a `set` of the key. -/
lemma runOps_keyBound (k : String) (d : DataFrame) :
    ∀ (ops : List Op) (c : Cache), keyBound k d c →
      (∀ d', Op.set k d' ∉ ops) → keyBound k d (runOps c ops) := by
  intro ops
  induction ops with
  | nil => intro c h _; simpa [runOps] using h
  | cons op rest ih =>
    intro c h hops
    have hstep : keyBound k d (applyOp c op) := by
      apply keyBound_step c k d op _ h
      intro d' hd
      exact hops d' (by rw [hd]; exact List.mem_cons_self _ _)
    have hrest : ∀ d', Op.set k d' ∉ rest := fun d' hd =>
      hops d' (List.mem_cons_of_mem _ hd)
    simpa [runOps] using ih (applyOp c op) hstep hrest

/-- When the key is already resident and the bound is respected, `set`
performs an in-place update: the entry list becomes the pointwise update. -/
lemma set_entries_of_mem (c : Cache) (k : String) (d' : DataFrame)
    (hlen : c.entries.length ≤ c.maxSize)
    (hmem : c.entries.any (fun p => p.1 == k) = true) :
    (c.set k d').entries =
      c.entries.map (fun p => if p.1 == k then (k, d') else p) := by
  unfold Cache.set insertRaw
  simp only [hmem, if_true]
  have hz : (c.entries.map
      (fun p => if p.1 == k then (k, d') else p)).length - c.maxSize = 0 := by
    rw [List.length_map]
    omega
  rw [hz, List.drop_zero]

/-- Retrieving the key just written succeeds when the bound is positive. -/
lemma get_set_self (c : Cache) (k : String) (d : DataFrame)
    (hsz : 0 < c.maxSize) (hlen : c.entries.length ≤ c.maxSize) :
    (c.set k d).get k = some d := by
  by_cases hany : c.entries.any (fun p => p.1 == k) = true
  · rw [Cache.get, set_entries_of_mem c k d hlen hany, List.find?_map]
    have hpred : ((fun p : String × DataFrame => p.1 == k) ∘
        (fun p => if p.1 == k then (k, d) else p)) =
        (fun p : String × DataFrame => p.1 == k) := by
      funext q
      simp only [Function.comp]
      rw [updFst]
    rw [hpred]
    obtain ⟨q, hq, hqk⟩ := List.any_eq_true.mp hany
    have hsome : (c.entries.find? (fun p => p.1 == k)).isSome :=
      List.find?_isSome.mpr ⟨q, hq, hqk⟩
    obtain ⟨q0, hq0⟩ := Option.isSome_iff_exists.mp hsome
    rw [hq0]
    have hq0k := List.find?_some hq0
    have hq0e := eq_of_beq hq0k
    simp [hq0e]
  · have hany' : c.entries.any (fun p => p.1 == k) = false := by
      rw [← Bool.not_eq_true]
      exact hany
    unfold Cache.get Cache.set insertRaw
    simp only [hany', if_false, Bool.false_eq_true]
    have hm : (c.entries ++ [(k, d)]).length - c.maxSize ≤ c.entries.length := by
      rw [List.length_append]
      simp only [List.length_cons, List.length_nil]
      omega
    rw [List.drop_append_of_le_length hm, List.find?_append]
    have hnone : ((c.entries.drop ((c.entries ++ [(k, d)]).length - c.maxSize)).find?
        (fun p => p.1 == k)) = none := by
      rw [List.find?_eq_none]
      intro x hx
      exact (List.any_eq_false.mp hany') x (List.mem_of_mem_drop hx)
    rw [hnone]
    simp

/-! ## Claims -/

/-- Claim C1: from any fresh cache with positive `max_size`, after any
sequence of operations the number of resident entries never exceeds
`max_size`; an insertion evicts only from the front of the insertion order
(earliest-inserted first), and `get` never changes the cache state, so
eviction is FIFO by insertion time, not access time. -/
theorem cache_bounded_fifo (ns : String) (n : Nat) (_hn : 0 < n)
    (ops : List Op) (c : Cache) (k : String) (d : DataFrame) :
    (runOps (mkCache ns n) ops).entries.length ≤ n ∧
    List.IsSuffix (c.set k d).entries (insertRaw c k d) ∧
    applyOp c (Op.get k) = c := by
  refine ⟨?_, ?_, rfl⟩
  · exact runOps_length_le ops (mkCache ns n) (by simp [mkCache])
  · exact List.drop_suffix _ _

/-- Witness for C1, on a run of three insertions into a cache of bound 2. -/
theorem cache_bounded_fifo_witness :
    0 < 2 ∧
    ((runOps (mkCache "predict" 2)
        [Op.set "a" ⟨0, [], []⟩, Op.set "b" ⟨0, [], []⟩,
         Op.set "c" ⟨0, [], []⟩]).entries.length ≤ 2 ∧
     List.IsSuffix
        ((mkCache "predict" 2).set "a" ⟨0, [], []⟩).entries
        (insertRaw (mkCache "predict" 2) "a" ⟨0, [], []⟩) ∧
     applyOp (mkCache "predict" 2) (Op.get "a") = mkCache "predict" 2) :=
  ⟨by decide,
   cache_bounded_fifo "predict" 2 (by decide)
     [Op.set "a" ⟨0, [], []⟩, Op.set "b" ⟨0, [], []⟩, Op.set "c" ⟨0, [], []⟩]
     (mkCache "predict" 2) "a" ⟨0, [], []⟩⟩

/-- Claim C2: `get(key)` directly after `set(key, D)` returns `D`, and after
any further operations that never `set` the key again, as long as the key
still resolves (it was not deleted or evicted meanwhile), the dataset
returned is `D` itself — same checksum (fingerprint) and same column list. -/
theorem cache_roundtrip (c : Cache) (k : String) (d : DataFrame)
    (rest : List Op) (hsz : 0 < c.maxSize)
    (hlen : c.entries.length ≤ c.maxSize)
    (hset : ∀ d', Op.set k d' ∉ rest) :
    (c.set k d).get k = some d ∧
    (∀ d', (runOps (c.set k d) rest).get k = some d' →
        d' = d ∧ dataframe_checksum d' = dataframe_checksum d ∧
          d'.cols = d.cols) := by
  refine ⟨get_set_self c k d hsz hlen, ?_⟩
  intro d' hget
  have hb : keyBound k d (runOps (c.set k d) rest) :=
    runOps_keyBound k d rest (c.set k d) (keyBound_insert c k d) hset
  unfold Cache.get at hget
  obtain ⟨p, hp, hpd⟩ := Option.map_eq_some'.mp hget
  have hpk := List.find?_some hp
  have hpmem := List.mem_of_find?_eq_some hp
  have : p.2 = d := hb p hpmem hpk
  rw [← hpd, this]
  exact ⟨rfl, rfl, rfl⟩

/-- Witness for C2: set a key in a fresh bound-2 cache, set another key,
then get the first key back unchanged. -/
theorem cache_roundtrip_witness :
    (0 < (mkCache "predict" 2).maxSize ∧
     (mkCache "predict" 2).entries.length ≤ (mkCache "predict" 2).maxSize ∧
     (∀ d', Op.set "n" d' ∉ [Op.set "other" ⟨0, [], []⟩])) ∧
    (((mkCache "predict" 2).set "n" ⟨1, ["a"], []⟩).get "n" =
        some ⟨1, ["a"], []⟩ ∧
     (∀ d', (runOps ((mkCache "predict" 2).set "n" ⟨1, ["a"], []⟩)
          [Op.set "other" ⟨0, [], []⟩]).get "n" = some d' →
        d' = ⟨1, ["a"], []⟩ ∧
        dataframe_checksum d' = dataframe_checksum ⟨1, ["a"], []⟩ ∧
        d'.cols = DataFrame.cols ⟨1, ["a"], []⟩)) := by
  have hset : ∀ d', Op.set "n" d' ∉ [Op.set "other" ⟨0, [], []⟩] := by
    intro d'
    simp
  exact ⟨⟨by decide, by decide, hset⟩,
    cache_roundtrip (mkCache "predict" 2) "n" ⟨1, ["a"], []⟩
      [Op.set "other" ⟨0, [], []⟩] (by decide) (by decide) hset⟩

/-- Claim C7: overwriting a resident key updates its value in place: the key
sequence of the cache (and hence every key's insertion-order position) is
unchanged, nothing is evicted, the key now resolves to the new dataset, and
every other key resolves exactly as before. -/
theorem set_overwrite_keeps_position (c : Cache) (k : String) (d' : DataFrame)
    (hlen : c.entries.length ≤ c.maxSize)
    (hmem : c.entries.any (fun p => p.1 == k) = true) :
    (c.set k d').entries.map Prod.fst = c.entries.map Prod.fst ∧
    (c.set k d').get k = some d' ∧
    (∀ k', ¬(k' = k) → (c.set k d').get k' = c.get k') := by
  have hsz : 0 < c.maxSize := by
    obtain ⟨q, hq, _⟩ := List.any_eq_true.mp hmem
    have : 0 < c.entries.length := List.length_pos.mpr (by
      intro hnil
      rw [hnil] at hq
      exact (List.not_mem_nil q) hq)
    omega
  refine ⟨?_, get_set_self c k d' hsz hlen, ?_⟩
  · rw [set_entries_of_mem c k d' hlen hmem, List.map_map]
    have : (Prod.fst ∘ fun p : String × DataFrame =>
        if p.1 == k then (k, d') else p) = Prod.fst := funext (updFst k d')
    rw [this]
  · intro k' hk'
    rw [Cache.get, Cache.get, set_entries_of_mem c k d' hlen hmem,
      List.find?_map]
    have hpred : ((fun p : String × DataFrame => p.1 == k') ∘
        (fun p => if p.1 == k then (k, d') else p)) =
        (fun p : String × DataFrame => p.1 == k') := by
      funext q
      simp only [Function.comp]
      rw [updFst]
    rw [hpred]
    cases hfind : c.entries.find? (fun p => p.1 == k') with
    | none => rfl
    | some q =>
      have hq := List.find?_some hfind
      have hqe := eq_of_beq hq
      have hne : ¬(q.1 = k) := by
        rw [hqe]
        exact hk'
      have hqk : ¬(q.1 == k) = true := by
        simpa using hne
      simp [Option.map_some, hqk, hne]

/-- Witness for C7: overwriting the older of two resident keys keeps its
front position and does not disturb the other key. -/
theorem set_overwrite_keeps_position_witness :
    ((Cache.entries ⟨"predict", 2, [("a", ⟨0, [], []⟩), ("b", ⟨1, [], []⟩)]⟩).length ≤ 2 ∧
     (Cache.entries ⟨"predict", 2, [("a", ⟨0, [], []⟩), ("b", ⟨1, [], []⟩)]⟩).any
        (fun p => p.1 == "a") = true) ∧
    ((Cache.set ⟨"predict", 2, [("a", ⟨0, [], []⟩), ("b", ⟨1, [], []⟩)]⟩ "a"
        ⟨2, ["x"], []⟩).entries.map Prod.fst =
      (Cache.entries ⟨"predict", 2, [("a", ⟨0, [], []⟩), ("b", ⟨1, [], []⟩)]⟩).map
        Prod.fst ∧
     (Cache.set ⟨"predict", 2, [("a", ⟨0, [], []⟩), ("b", ⟨1, [], []⟩)]⟩ "a"
        ⟨2, ["x"], []⟩).get "a" = some ⟨2, ["x"], []⟩ ∧
     (∀ k', ¬(k' = "a") →
        (Cache.set ⟨"predict", 2, [("a", ⟨0, [], []⟩), ("b", ⟨1, [], []⟩)]⟩ "a"
          ⟨2, ["x"], []⟩).get k' =
        Cache.get ⟨"predict", 2, [("a", ⟨0, [], []⟩), ("b", ⟨1, [], []⟩)]⟩ k')) :=
  ⟨⟨by decide, by decide⟩,
   set_overwrite_keeps_position
     ⟨"predict", 2, [("a", ⟨0, [], []⟩), ("b", ⟨1, [], []⟩)]⟩ "a"
     ⟨2, ["x"], []⟩ (by decide) (by decide)⟩

/-- In a list with pairwise-distinct keys, `find?` by the key of a member
returns exactly that member. -/
lemma find?_of_nodup_keys {g : Type} :
    ∀ (l : List (String × g)), (l.map Prod.fst).Nodup →
      ∀ p ∈ l, l.find? (fun q => q.1 == p.1) = some p := by
  intro l
  induction l with
  | nil => intro _ p hp; cases hp
  | cons a t ih =>
    intro hnd p hp
    rw [List.map_cons, List.nodup_cons] at hnd
    rcases List.mem_cons.mp hp with rfl | hpt
    · exact List.find?_cons_of_pos t (by simp)
    · have hak : ¬((fun q : String × g => q.1 == p.1) a = true) := by
        simp only [beq_iff_eq]
        intro e
        exact hnd.1 (e ▸ List.mem_map_of_mem Prod.fst hpt)
      rw [List.find?_cons_of_neg t hak]
      exact ih hnd.2 p hpt

/-- Setting a list of pairwise-fresh keys: the entry list is the suffix of
the inserted pairs that fits under the bound. -/
lemma setAll_entries_eq (N : Nat) (ns : String) :
    ∀ (ps qs : List (String × DataFrame)),
      ((qs ++ ps).map Prod.fst).Nodup → qs.length ≤ N →
      (setAll ⟨ns, N, qs⟩ ps).entries =
        (qs ++ ps).drop (qs.length + ps.length - N) := by
  intro ps
  induction ps with
  | nil =>
    intro qs hnd hq
    simp only [setAll, List.foldl_nil, List.append_nil, List.length_nil,
      Nat.add_zero]
    have hz : qs.length - N = 0 := by omega
    rw [hz, List.drop_zero]
  | cons p ps' ih =>
    intro qs hnd hq
    have hkey : p.1 ∉ qs.map Prod.fst := by
      intro hmem
      have hnd2 : (qs.map Prod.fst ++ (p.1 :: ps'.map Prod.fst)).Nodup := by
        simpa using hnd
      exact (List.nodup_append.mp hnd2).2.2 hmem (List.mem_cons_self _ _)
    have hany : (qs.any fun q => q.1 == p.1) = false := by
      rw [List.any_eq_false]
      intro x hx
      simp only [beq_iff_eq]
      intro e
      exact hkey (e ▸ List.mem_map_of_mem Prod.fst hx)
    have hset : Cache.set ⟨ns, N, qs⟩ p.1 p.2 =
        ⟨ns, N, (qs ++ [p]).drop (qs.length + 1 - N)⟩ := by
      unfold Cache.set insertRaw
      simp [hany, Prod.mk.eta]
    have hstep : setAll ⟨ns, N, qs⟩ (p :: ps') =
        setAll (Cache.set ⟨ns, N, qs⟩ p.1 p.2) ps' := rfl
    rw [hstep, hset]
    have hm : qs.length + 1 - N ≤ (qs ++ [p]).length := by
      rw [List.length_append, List.length_cons, List.length_nil]
      omega
    have hsub : List.Sublist
        (((qs ++ [p]).drop (qs.length + 1 - N)) ++ ps')
        ((qs ++ [p]) ++ ps') :=
      List.Sublist.append_right (List.drop_sublist _ _) ps'
    have heq : (qs ++ [p]) ++ ps' = qs ++ p :: ps' := by simp
    have hnd' : ((((qs ++ [p]).drop (qs.length + 1 - N)) ++ ps').map
        Prod.fst).Nodup :=
      List.Nodup.sublist (List.Sublist.map Prod.fst hsub)
        (by rw [heq]; exact hnd)
    have hlen' : ((qs ++ [p]).drop (qs.length + 1 - N)).length ≤ N := by
      rw [List.length_drop, List.length_append, List.length_cons,
        List.length_nil]
      omega
    rw [ih _ hnd' hlen', ← List.drop_append_of_le_length hm, List.drop_drop,
      heq]
    have harith : qs.length + 1 - N +
        (((qs ++ [p]).drop (qs.length + 1 - N)).length + ps'.length - N) =
        qs.length + (p :: ps').length - N := by
      rw [List.length_drop, List.length_append, List.length_cons,
        List.length_nil, List.length_cons]
      omega
    rw [harith]

/-- Claim C3: with `max_size = N` and more than `N` pairwise-distinct keys
set in order into a fresh cache, the first key has been evicted (`get`
returns absent) while each of the `N` most-recently-inserted keys — in
particular the last — still resolves to its dataset. -/
theorem cache_eviction_order (ns : String) (N : Nat)
    (ps : List (String × DataFrame)) (hN : 0 < N) (hlen : N < ps.length)
    (hnd : (ps.map Prod.fst).Nodup) :
    (∀ p, ps.head? = some p → (setAll (mkCache ns N) ps).get p.1 = none) ∧
    (∀ p ∈ ps.drop (ps.length - N),
        (setAll (mkCache ns N) ps).get p.1 = some p.2) ∧
    (∀ p, ps.getLast? = some p →
        (setAll (mkCache ns N) ps).get p.1 = some p.2) := by
  have hent : (setAll (mkCache ns N) ps).entries =
      ps.drop (ps.length - N) := by
    have h := setAll_entries_eq N ns ps [] (by simpa using hnd) (by simp)
    simpa [mkCache] using h
  have hdropnd : ((ps.drop (ps.length - N)).map Prod.fst).Nodup :=
    List.Nodup.sublist (List.Sublist.map Prod.fst (List.drop_sublist _ _)) hnd
  have h2 : ∀ p ∈ ps.drop (ps.length - N),
      (setAll (mkCache ns N) ps).get p.1 = some p.2 := by
    intro p hp
    rw [Cache.get, hent, find?_of_nodup_keys _ hdropnd p hp]
    rfl
  refine ⟨?_, h2, ?_⟩
  · intro p hp
    rcases ps with _ | ⟨p0, tail⟩
    · cases hp
    have hpp : p = p0 := by
      simp only [List.head?_cons, Option.some.injEq] at hp
      exact hp.symm
    subst hpp
    rw [Cache.get, hent, Option.map_eq_none', List.find?_eq_none]
    intro x hx
    have hm1 : ∃ m, (p :: tail).length - N = m + 1 := by
      refine ⟨(p :: tail).length - N - 1, ?_⟩
      simp only [List.length_cons] at hlen ⊢
      omega
    obtain ⟨m, hm⟩ := hm1
    rw [hm, List.drop_succ_cons] at hx
    have hxt : x ∈ tail := List.mem_of_mem_drop hx
    rw [List.map_cons, List.nodup_cons] at hnd
    simp only [beq_iff_eq]
    intro e
    exact hnd.1 (e ▸ List.mem_map_of_mem Prod.fst hxt)
  · intro p hp
    apply h2
    have hne : ps.drop (ps.length - N) ≠ [] := by
      intro hnil
      have := List.length_drop (ps.length - N) ps
      rw [hnil] at this
      simp only [List.length_nil] at this
      omega
    have hsplit : ps.getLast? = (ps.drop (ps.length - N)).getLast? := by
      conv_lhs => rw [← List.take_append_drop (ps.length - N) ps]
      rw [List.getLast?_append]
      cases hgl : (ps.drop (ps.length - N)).getLast? with
      | none => exact absurd (List.getLast?_eq_none_iff.mp hgl) hne
      | some a => rfl
    rw [hsplit] at hp
    exact List.mem_of_getLast?_eq_some hp

/-- The eviction scenario of the test suite: key "first", then "0".."6". -/
def scenario8 : List (String × DataFrame) :=
  [("first", ⟨0, [], []⟩), ("0", ⟨0, [], []⟩), ("1", ⟨0, [], []⟩),
   ("2", ⟨0, [], []⟩), ("3", ⟨0, [], []⟩), ("4", ⟨0, [], []⟩),
   ("5", ⟨0, [], []⟩), ("6", ⟨0, [], []⟩)]

/-- Witness for C3: the test scenario — `max_size = 2`, insert "first" and
then seven more keys; "first" is evicted, the two newest keys survive. -/
theorem cache_eviction_order_witness :
    (0 < 2 ∧ 2 < scenario8.length ∧ (scenario8.map Prod.fst).Nodup) ∧
    ((setAll (mkCache "predict" 2) scenario8).get "first" = none ∧
     (setAll (mkCache "predict" 2) scenario8).get "6" = some ⟨0, [], []⟩ ∧
     (setAll (mkCache "predict" 2) scenario8).get "5" = some ⟨0, [], []⟩) := by
  have h := cache_eviction_order "predict" 2 scenario8 (by decide)
    (by decide) (by decide)
  exact ⟨⟨by decide, by decide, by decide⟩,
    h.1 ("first", ⟨0, [], []⟩) rfl,
    h.2.2 ("6", ⟨0, [], []⟩) rfl,
    h.2.1 ("5", ⟨0, [], []⟩) (by simp [scenario8])⟩

/-- Claim C4: the fingerprint over tabular datasets is pure and
deterministic — content-equal datasets (object identity ignored) have equal
checksums, and the checksum of a dataset is a fixed string. -/
theorem dataframe_checksum_deterministic (d1 d2 : DataFrame)
    (h : contentEq d1 d2) :
    dataframe_checksum d1 = dataframe_checksum d2 ∧
    dataframe_checksum d1 = dataframe_checksum d1 := by
  obtain ⟨hc, hr⟩ := h
  refine ⟨?_, rfl⟩
  unfold dataframe_checksum serializeDataFrame
  rw [hc, hr]

/-- Witness for C4: two datasets with different object identity but equal
content have equal checksums. -/
theorem dataframe_checksum_deterministic_witness :
    contentEq ⟨0, ["a"], [[Cell.prim "1"]]⟩ ⟨1, ["a"], [[Cell.prim "1"]]⟩ ∧
    (dataframe_checksum ⟨0, ["a"], [[Cell.prim "1"]]⟩ =
      dataframe_checksum ⟨1, ["a"], [[Cell.prim "1"]]⟩ ∧
     dataframe_checksum ⟨0, ["a"], [[Cell.prim "1"]]⟩ =
      dataframe_checksum ⟨0, ["a"], [[Cell.prim "1"]]⟩) :=
  ⟨⟨rfl, rfl⟩, dataframe_checksum_deterministic _ _ ⟨rfl, rfl⟩⟩

/-- Claim C5: `delete` removes the entry, is idempotent, raises no error on
an absent key (deleting an absent key leaves the cache unchanged), and every
subsequent `get` of the key — across any further operations that never `set`
that key again — returns the absent sentinel. -/
theorem delete_semantics (c : Cache) (k : String) :
    (c.delete k).get k = none ∧
    (c.delete k).delete k = c.delete k ∧
    (c.get k = none → c.delete k = c) ∧
    (∀ rest : List Op, (∀ d, Op.set k d ∉ rest) →
        (runOps (c.delete k) rest).get k = none) := by
  have hgone : (c.delete k).get k = none := by
    rw [get_eq_none_iff]
    intro p hp
    have := List.mem_filter.mp hp
    simpa using this.2
  refine ⟨hgone, ?_, ?_, ?_⟩
  · obtain ⟨ns, m, entries⟩ := c
    simp [Cache.delete, List.filter_filter]
  · intro h
    rw [get_eq_none_iff] at h
    obtain ⟨ns, m, entries⟩ := c
    simp only [Cache.delete, Cache.mk.injEq, true_and]
    apply List.filter_eq_self.mpr
    intro p hp
    simpa using h p hp
  · intro rest hrest
    exact runOps_get_none k rest (c.delete k) hgone hrest

/-- Witness for C5, at a nonempty cache and an absent key, with a subsequent
run that sets and deletes another key before the final `get`. -/
theorem delete_semantics_witness :
    (Cache.get ⟨"predict", 2, [("x", ⟨0, [], []⟩)]⟩ "y" = none ∧
     (∀ d, Op.set "y" d ∉
        [Op.set "z" ⟨1, [], []⟩, Op.delete "z", Op.get "y"])) ∧
    ((Cache.delete ⟨"predict", 2, [("x", ⟨0, [], []⟩)]⟩ "y").get "y" = none ∧
     (Cache.delete ⟨"predict", 2, [("x", ⟨0, [], []⟩)]⟩ "y").delete "y" =
       Cache.delete ⟨"predict", 2, [("x", ⟨0, [], []⟩)]⟩ "y" ∧
     (Cache.get ⟨"predict", 2, [("x", ⟨0, [], []⟩)]⟩ "y" = none →
       Cache.delete ⟨"predict", 2, [("x", ⟨0, [], []⟩)]⟩ "y" =
         ⟨"predict", 2, [("x", ⟨0, [], []⟩)]⟩) ∧
     (∀ rest : List Op, (∀ d, Op.set "y" d ∉ rest) →
        (runOps (Cache.delete ⟨"predict", 2, [("x", ⟨0, [], []⟩)]⟩ "y")
          rest).get "y" = none)) ∧
    (runOps (Cache.delete ⟨"predict", 2, [("x", ⟨0, [], []⟩)]⟩ "y")
        [Op.set "z" ⟨1, [], []⟩, Op.delete "z", Op.get "y"]).get "y" =
      none := by
  have hops : ∀ d, Op.set "y" d ∉
      ([Op.set "z" ⟨1, [], []⟩, Op.delete "z", Op.get "y"] : List Op) := by
    intro d
    simp
  have h := delete_semantics ⟨"predict", 2, [("x", ⟨0, [], []⟩)]⟩ "y"
  exact ⟨⟨rfl, hops⟩, h, h.2.2.2 _ hops⟩

/-- Claim C6: `get` of a key never `set` during the run returns the absent
sentinel (`none`), for any sequence of operations on a fresh cache. -/
theorem get_never_set (ns : String) (n : Nat) (k : String) (ops : List Op)
    (h : ∀ d, Op.set k d ∉ ops) :
    (runOps (mkCache ns n) ops).get k = none :=
  runOps_get_none k ops (mkCache ns n) rfl h

/-- Witness for C6: a run that sets and deletes other keys never makes the
untouched key present. -/
theorem get_never_set_witness :
    (∀ d, Op.set "b" d ∉
        [Op.set "a" ⟨0, [], []⟩, Op.delete "a", Op.get "b"]) ∧
    (runOps (mkCache "predict" 2)
        [Op.set "a" ⟨0, [], []⟩, Op.delete "a", Op.get "b"]).get "b" = none := by
  refine ⟨?_, get_never_set "predict" 2 "b" _ ?_⟩ <;>
    · intro d
      simp

/-- Claim C8: when `check_connection`'s probe succeeds, the handler's
connection state is as before: an already connected handler stays connected
(state unchanged), a disconnected one ends disconnected with no open probe
client left behind. -/
theorem esCheckConnection_frame (s : ESState) (ok : Bool)
    (h : (esCheckConnection s ok).2 = true) :
    (esCheckConnection s ok).1.is_connected = s.is_connected ∧
    (s.is_connected = true → (esCheckConnection s ok).1 = s) ∧
    (s.is_connected = false → (esCheckConnection s ok).1.conn ≠ some true) := by
  obtain ⟨ic, conn⟩ := s
  revert h
  rcases conn with _ | b <;> cases ic <;> cases ok <;> try cases b
  all_goals decide

/-- Witness for C8: probing from a fresh disconnected handler succeeds and
leaves it disconnected with the probe client closed. -/
theorem esCheckConnection_frame_witness :
    (esCheckConnection ⟨false, none⟩ true).2 = true ∧
    ((esCheckConnection ⟨false, none⟩ true).1.is_connected = false ∧
     (ESState.is_connected ⟨false, none⟩ = true →
        (esCheckConnection ⟨false, none⟩ true).1 = ⟨false, none⟩) ∧
     (ESState.is_connected ⟨false, none⟩ = false →
        (esCheckConnection ⟨false, none⟩ true).1.conn ≠ some true)) :=
  ⟨rfl, esCheckConnection_frame ⟨false, none⟩ true rfl⟩

/-- The pagination loop never returns more rows than `count_results` when
the requested size is non-negative, whatever the client pages contain. -/
lemma webzCollect_le {α β : Type} (parse : α → β) (s : Int) (hs : 0 ≤ s) :
    ∀ (pages : List (List α)) (data : List β) (r : List β),
      webzCollect parse s data pages = some r → (r.length : Int) ≤ s := by
  intro pages
  induction pages with
  | nil =>
    intro data r h
    simp only [webzCollect] at h
    split_ifs at h with h0 hneg
    · cases h
      omega
    · cases h
      rw [List.length_take]
      have he : ((data.length : Int) + (s - data.length)) = s := by ring
      rw [he]
      have h1 : min s.toNat data.length ≤ s.toNat := Nat.min_le_left _ _
      have h2 := Int.toNat_of_nonneg hs
      omega
  | cons page rest ih =>
    intro data r h
    simp only [webzCollect] at h
    split_ifs at h with h0 hneg
    · cases h
      omega
    · cases h
      rw [List.length_take]
      have he : ((data.length : Int) + (s - data.length)) = s := by ring
      rw [he]
      have h1 : min s.toNat data.length ≤ s.toNat := Nat.min_le_left _ _
      have h2 := Int.toNat_of_nonneg hs
      omega
    · exact ih (data ++ page.map parse) r h

/-- Claim C9: whenever `call_webz_api` is invoked with a `'size'` entry equal
to a non-negative `s` and returns normally, the returned row list holds at
most `s` rows, however many results the client pages contain. -/
theorem call_webz_api_size_bound {α β : Type} (parse : α → β)
    (method_name : String) (s : Int) (pages : List (List α)) (rows : List β)
    (hs : 0 ≤ s)
    (h : call_webz_api parse method_name (some s) pages =
      Except.ok (some rows)) :
    (rows.length : Int) ≤ s := by
  unfold call_webz_api at h
  split_ifs at h
  have hcol : webzCollect parse s [] pages = some rows := by
    injection h
  exact webzCollect_le parse s hs pages [] rows hcol

/-- Witness for C9: a single page of three posts with `size = 1` yields one
row. -/
theorem call_webz_api_size_bound_witness :
    (0 ≤ (1 : Int) ∧
     call_webz_api (fun n : Nat => n) "filterWebContent" (some 1)
       [[1, 2, 3]] = Except.ok (some [1])) ∧
    (([1] : List Nat).length : Int) ≤ 1 :=
  ⟨⟨by decide, rfl⟩,
   call_webz_api_size_bound (fun n : Nat => n) "filterWebContent" 1
     [[1, 2, 3]] [1] (by decide) rfl⟩

/-- Membership at a key other than the one being assigned is untouched by
dict assignment. -/
lemma mem_setParam_of_ne (ps : List (String × PVal)) (k : String) (v : PVal)
    (k' : String) (w : PVal) (hne : ¬(k' = k)) :
    ((k', w) ∈ setParam ps k v) ↔ (k', w) ∈ ps := by
  unfold setParam
  split
  · constructor
    · intro hm
      obtain ⟨q, hq, he⟩ := List.mem_map.mp hm
      by_cases hqk : q.1 == k
      · rw [if_pos hqk] at he
        injection he with h1 _
        exact absurd h1.symm hne
      · rw [if_neg hqk] at he
        rw [← he]
        exact hq
    · intro hm
      refine List.mem_map.mpr ⟨(k', w), hm, ?_⟩
      rw [if_neg (by simpa using hne)]
  · constructor
    · intro hm
      rcases List.mem_append.mp hm with hm | hm
      · exact hm
      · have he : (k', w) = (k, v) := by simpa using hm
        injection he with h1 _
        exact absurd h1 hne
    · intro hm
      exact List.mem_append.mpr (Or.inl hm)

/-- Membership at the assigned key: the value is the assigned one, or the
pair was already present. -/
lemma mem_setParam_same (ps : List (String × PVal)) (k : String) (v w : PVal) :
    (k, w) ∈ setParam ps k v → w = v ∨ (k, w) ∈ ps := by
  unfold setParam
  split
  · intro hm
    obtain ⟨q, hq, he⟩ := List.mem_map.mp hm
    by_cases hqk : q.1 == k
    · rw [if_pos hqk] at he
      injection he with _ h2
      exact Or.inl h2.symm
    · rw [if_neg hqk] at he
      exact Or.inr (he ▸ hq)
  · intro hm
    rcases List.mem_append.mp hm with hm | hm
    · exact Or.inr hm
    · have he : (k, w) = (k, v) := by simpa using hm
      injection he with _ h2
      exact Or.inl h2

/-- Assigning the `sources` key makes it present. -/
lemma hasS_setParam_sources (ps : List (String × PVal)) (w : String) :
    ∃ u, ("sources", PVal.s u) ∈ setParam ps "sources" (PVal.s w) := by
  unfold setParam
  split
  · next hany =>
    obtain ⟨q, hq, hqk⟩ := List.any_eq_true.mp hany
    exact ⟨w, List.mem_map.mpr ⟨q, hq, by rw [if_pos hqk]⟩⟩
  · exact ⟨w, List.mem_append.mpr (Or.inr (List.mem_cons_self _ _))⟩

/-- A `sources` entry is untouched by an assignment to `from`. -/
lemma mem_sources_from (ps : List (String × PVal)) (v x : PVal) :
    (("sources", x) ∈ setParam ps "from" v) ↔ ("sources", x) ∈ ps :=
  mem_setParam_of_ne ps "from" v "sources" x (by decide)

/-- A `sources` entry is untouched by an assignment to `to`. -/
lemma mem_sources_to (ps : List (String × PVal)) (v x : PVal) :
    (("sources", x) ∈ setParam ps "to" v) ↔ ("sources", x) ∈ ps :=
  mem_setParam_of_ne ps "to" v "sources" x (by decide)

/-- A `sources` entry is untouched by the `publishedAt` branch. -/
lemma mem_sources_publishedAtUpdate (op a2 : String)
    (ps : List (String × PVal)) (x : PVal) :
    (("sources", x) ∈ publishedAtUpdate op a2 ps) ↔ ("sources", x) ∈ ps := by
  unfold publishedAtUpdate
  split_ifs <;> simp [mem_sources_from, mem_sources_to]

/-- One loop iteration, read on `sources` entries: any `sources` entry of
the output params was already present, or comes verbatim from a `sources`
condition that passed the 20-item check. -/
lemma applyCondition_mem (acc : List (String × PVal))
    (cond : String × String × String) (acc' : List (String × PVal))
    (h : applyCondition acc cond = .ok acc') (w : String)
    (hw : ("sources", PVal.s w) ∈ acc') :
    ("sources", PVal.s w) ∈ acc ∨
      (cond.2.1 = "sources" ∧ cond.2.2 = w ∧
        (pySplit ',' w).length ≤ 20) := by
  obtain ⟨op, a1, a2⟩ := cond
  unfold applyCondition at h
  dsimp only at h ⊢
  split_ifs at h with h1 h2 h20 h3
  · injection h with he
    subst he
    exact Or.inl ((mem_setParam_of_ne acc "q" _ "sources" _ (by decide)).mp hw)
  · injection h with he
    subst he
    subst h2
    rcases mem_setParam_same acc "sources" (PVal.s a2) (PVal.s w) hw with
      he2 | hin
    · injection he2 with he3
      exact Or.inr ⟨rfl, he3.symm, by rw [he3]; omega⟩
    · exact Or.inl hin
  · injection h with he
    subst he
    exact Or.inl ((mem_sources_publishedAtUpdate op a2 acc _).mp hw)
  · injection h with he
    subst he
    exact Or.inl ((mem_setParam_of_ne acc a1 _ "sources" _
      (fun e => h2 e.symm)).mp hw)

/-- One loop iteration preserves presence of a `sources` entry. -/
lemma applyCondition_hasS (acc : List (String × PVal))
    (cond : String × String × String) (acc' : List (String × PVal))
    (h : applyCondition acc cond = .ok acc')
    (hs : ∃ w, ("sources", PVal.s w) ∈ acc) :
    ∃ w, ("sources", PVal.s w) ∈ acc' := by
  obtain ⟨w, hw⟩ := hs
  obtain ⟨op, a1, a2⟩ := cond
  unfold applyCondition at h
  dsimp only at h
  split_ifs at h with h1 h2 h20 h3
  · injection h with he
    subst he
    exact ⟨w, (mem_setParam_of_ne acc "q" _ "sources" _ (by decide)).mpr hw⟩
  · injection h with he
    subst he
    subst h2
    exact hasS_setParam_sources acc a2
  · injection h with he
    subst he
    exact ⟨w, (mem_sources_publishedAtUpdate op a2 acc _).mpr hw⟩
  · injection h with he
    subst he
    exact ⟨w, (mem_setParam_of_ne acc a1 _ "sources" _
      (fun e => h2 e.symm)).mpr hw⟩

/-- Processing a `sources` condition that succeeds leaves a `sources` entry
present. -/
lemma applyCondition_sources_establishes (acc : List (String × PVal))
    (op v : String) (acc' : List (String × PVal))
    (h : applyCondition acc (op, "sources", v) = .ok acc') :
    ∃ w, ("sources", PVal.s w) ∈ acc' := by
  unfold applyCondition at h
  dsimp only at h
  rw [if_neg (by decide), if_pos rfl] at h
  split_ifs at h with h20
  injection h with he
  subst he
  exact hasS_setParam_sources acc v

/-- The only exception the conditions loop raises is the 20-item
`ValueError` of the `sources` branch. -/
lemma applyCondition_error (acc : List (String × PVal))
    (cond : String × String × String) (e : PyErr)
    (h : applyCondition acc cond = .error e) :
    e = PyErr.valueError
      "The number of items it sources should be 20 or less" := by
  obtain ⟨op, a1, a2⟩ := cond
  unfold applyCondition at h
  dsimp only at h
  split_ifs at h
  injection h with he
  exact he.symm

/-- Splitting a successful `Except` bind into its two successful stages. -/
lemma except_bind_ok {e a b : Type} (x : Except e a) (f : a → Except e b)
    (r : b) (h : x >>= f = .ok r) : ∃ v, x = .ok v ∧ f v = .ok r := by
  cases x with
  | error err => exact Except.noConfusion h
  | ok v => exact ⟨v, rfl, h⟩

/-- Whole-loop version of `applyCondition_mem`: any `sources` entry of the
final params was in the initial dict or comes verbatim from a passing
`sources` condition. -/
lemma build_fold_mem :
    ∀ (conds : List (String × String × String))
      (acc ps : List (String × PVal)),
      List.foldlM applyCondition acc conds = .ok ps →
      ∀ w, ("sources", PVal.s w) ∈ ps →
        ("sources", PVal.s w) ∈ acc ∨
          ((∃ op, (op, "sources", w) ∈ conds) ∧
            (pySplit ',' w).length ≤ 20) := by
  intro conds
  induction conds with
  | nil =>
    intro acc ps h w hw
    simp only [List.foldlM_nil] at h
    have he : Except.ok acc = Except.ok ps := h
    injection he with he2
    subst he2
    exact Or.inl hw
  | cons c cs ih =>
    intro acc ps h w hw
    rw [List.foldlM_cons] at h
    obtain ⟨acc', hstep, hrest⟩ := except_bind_ok _ _ _ h
    rcases ih acc' ps hrest w hw with hin | ⟨⟨op, hop⟩, hlen⟩
    · rcases applyCondition_mem acc c acc' hstep w hin with hin2 | ⟨hs1, hs2, hs3⟩
      · exact Or.inl hin2
      · refine Or.inr ⟨⟨c.1, ?_⟩, hs3⟩
        have hc : c = (c.1, "sources", w) := by
          obtain ⟨c1, c2, c3⟩ := c
          simp only at hs1 hs2
          rw [hs1, hs2]
        rw [← hc]
        exact List.mem_cons_self _ _
    · exact Or.inr ⟨⟨op, List.mem_cons_of_mem _ hop⟩, hlen⟩

/-- When some condition's `sources` value splits into more than 20 items,
the conditions loop raises exactly the 20-item `ValueError`. -/
lemma build_fold_error :
    ∀ (conds : List (String × String × String)) (acc : List (String × PVal)),
      (∃ op v, (op, "sources", v) ∈ conds ∧ 20 < (pySplit ',' v).length) →
      List.foldlM applyCondition acc conds =
        .error (.valueError
          "The number of items it sources should be 20 or less") := by
  intro conds
  induction conds with
  | nil =>
    rintro acc ⟨op, v, hmem, _⟩
    cases hmem
  | cons c cs ih =>
    rintro acc ⟨op, v, hmem, hlen⟩
    rw [List.foldlM_cons]
    cases hstep : applyCondition acc c with
    | error e =>
      have he := applyCondition_error acc c e hstep
      subst he
      rfl
    | ok acc' =>
      rcases List.mem_cons.mp hmem with rfl | hmem'
      · exfalso
        unfold applyCondition at hstep
        dsimp only at hstep
        rw [if_neg (by decide), if_pos rfl, if_pos hlen] at hstep
        exact Except.noConfusion hstep
      · exact ih acc' ⟨op, v, hmem', hlen⟩

/-- The loop keeps (or creates) a `sources` entry when one is in the
initial dict or a `sources` condition occurs. -/
lemma build_fold_hasS :
    ∀ (conds : List (String × String × String))
      (acc ps : List (String × PVal)),
      List.foldlM applyCondition acc conds = .ok ps →
      ((∃ w, ("sources", PVal.s w) ∈ acc) ∨
        ∃ op v, (op, "sources", v) ∈ conds) →
      ∃ w, ("sources", PVal.s w) ∈ ps := by
  intro conds
  induction conds with
  | nil =>
    intro acc ps h hd
    simp only [List.foldlM_nil] at h
    have he : Except.ok acc = Except.ok ps := h
    injection he with he2
    subst he2
    rcases hd with hs | ⟨op, v, hmem⟩
    · exact hs
    · cases hmem
  | cons c cs ih =>
    intro acc ps h hd
    rw [List.foldlM_cons] at h
    obtain ⟨acc', hstep, hrest⟩ := except_bind_ok _ _ _ h
    rcases hd with hs | ⟨op, v, hmem⟩
    · exact ih acc' ps hrest (Or.inl (applyCondition_hasS acc c acc' hstep hs))
    · rcases List.mem_cons.mp hmem with rfl | hmem'
      · exact ih acc' ps hrest
          (Or.inl (applyCondition_sources_establishes acc op v acc' hstep))
      · exact ih acc' ps hrest (Or.inr ⟨op, v, hmem'⟩)

/-- A `sources` entry is untouched by the limit handling. -/
lemma mem_sources_apply_limit (ps : List (String × PVal))
    (limit : Option Int) (x : PVal) :
    (("sources", x) ∈ apply_limit ps limit) ↔ ("sources", x) ∈ ps := by
  have hpage : ∀ (qs : List (String × PVal)) (v : PVal),
      (("sources", x) ∈ setParam qs "page" v) ↔ ("sources", x) ∈ qs :=
    fun qs v => mem_setParam_of_ne qs "page" v "sources" x (by decide)
  have hpsz : ∀ (qs : List (String × PVal)) (v : PVal),
      (("sources", x) ∈ setParam qs "page_size" v) ↔ ("sources", x) ∈ qs :=
    fun qs v => mem_setParam_of_ne qs "page_size" v "sources" x (by decide)
  cases limit with
  | none =>
    unfold apply_limit
    simp only [hpage, hpsz]
  | some l =>
    unfold apply_limit
    dsimp only
    split_ifs <;> simp only [hpage, hpsz]

/-- A `sources` entry is untouched by successful order-by handling. -/
lemma mem_sources_apply_order_by (ps : List (String × PVal))
    (order_by : List String) (ps' : List (String × PVal))
    (h : apply_order_by ps order_by = .ok ps') (x : PVal) :
    (("sources", x) ∈ ps') ↔ ("sources", x) ∈ ps := by
  unfold apply_order_by at h
  rcases order_by with _ | ⟨f, _ | ⟨f2, rest⟩⟩
  · have he : Except.ok ps = Except.ok ps' := h
    injection he with he2
    subst he2
    exact Iff.rfl
  · dsimp only at h
    split_ifs at h
    injection h with he
    subst he
    exact mem_setParam_of_ne ps "sort_by" _ "sources" x (by decide)
  · exact Except.noConfusion h

/-- Claim C10: a WHERE condition on `sources` whose value splits on "," into
more than 20 items makes `select` raise `ValueError` before the API is
called (the result is that error whatever the API function is); with 20 or
fewer items every `sources` entry handed to the API is the verbatim value
of some `sources` condition, and a `sources` condition guarantees a
`sources` entry reaches the API. -/
theorem newsapi_sources_guard (conditions : List (String × String × String))
    (limit : Option Int) (order_by : List String) :
    ((∃ op v, (op, "sources", v) ∈ conditions ∧
        20 < (pySplit ',' v).length) →
      ∀ (r : Type) (api : List (String × PVal) → r),
        NewsAPIArticleTable_select conditions limit order_by api =
          .error (.valueError
            "The number of items it sources should be 20 or less")) ∧
    (∀ ps, NewsAPIArticleTable_select conditions limit order_by
        (fun x => x) = .ok ps →
      (∀ w, ("sources", PVal.s w) ∈ ps →
        (∃ op, (op, "sources", w) ∈ conditions) ∧
          (pySplit ',' w).length ≤ 20) ∧
      (∀ op v, (op, "sources", v) ∈ conditions →
        ∃ w, ("sources", PVal.s w) ∈ ps)) := by
  constructor
  · intro hex r api
    have hb := build_fold_error conditions [] hex
    unfold NewsAPIArticleTable_select build_params
    rw [hb]
    rfl
  · intro ps h
    unfold NewsAPIArticleTable_select at h
    obtain ⟨ps0, hb, h2⟩ := except_bind_ok _ _ _ h
    obtain ⟨ps2, ho, hp⟩ := except_bind_ok _ _ _ h2
    have hps : ps2 = ps := by
      have he : Except.ok ps2 = Except.ok ps := hp
      injection he with he2
    subst hps
    constructor
    · intro w hw
      have hw0 : ("sources", PVal.s w) ∈ ps0 :=
        (mem_sources_apply_limit ps0 limit (PVal.s w)).mp
          ((mem_sources_apply_order_by (apply_limit ps0 limit) order_by ps2
            ho (PVal.s w)).mp hw)
      rcases build_fold_mem conditions [] ps0 hb w hw0 with hin | hgood
      · cases hin
      · exact hgood
    · intro op v hmem
      obtain ⟨w, hw0⟩ := build_fold_hasS conditions [] ps0 hb
        (Or.inr ⟨op, v, hmem⟩)
      exact ⟨w, (mem_sources_apply_order_by (apply_limit ps0 limit) order_by
        ps2 ho (PVal.s w)).mpr
          ((mem_sources_apply_limit ps0 limit (PVal.s w)).mpr hw0)⟩

/-- A `sources` value that splits on "," into 22 items. -/
def sources22 : String :=
  "s01,s02,s03,s04,s05,s06,s07,s08,s09,s10,s11,s12,s13,s14,s15,s16,s17,s18,s19,s20,s21,s22"

/-- Witness for C10: a 22-item `sources` condition makes `select` return
the `ValueError`; a 2-item one passes the value through to the API params
verbatim. -/
theorem newsapi_sources_guard_witness :
    (∃ op v, (op, "sources", v) ∈ [("Eq", "sources", sources22)] ∧
        20 < (pySplit ',' v).length) ∧
    NewsAPIArticleTable_select [("Eq", "sources", sources22)] none []
        (fun x => x) =
      .error (.valueError
        "The number of items it sources should be 20 or less") ∧
    (NewsAPIArticleTable_select [("Eq", "sources", "abc,bbc")] none []
        (fun x => x) =
      .ok [("sources", PVal.s "abc,bbc"), ("page_size", PVal.i 100),
           ("page", PVal.i 1)] ∧
     ((∃ op, (op, "sources", "abc,bbc") ∈ [("Eq", "sources", "abc,bbc")]) ∧
        (pySplit ',' "abc,bbc").length ≤ 20)) := by
  have hex : ∃ op v, (op, "sources", v) ∈ [("Eq", "sources", sources22)] ∧
      20 < (pySplit ',' v).length :=
    ⟨"Eq", sources22, List.mem_cons_self _ _, by decide⟩
  have hok : NewsAPIArticleTable_select [("Eq", "sources", "abc,bbc")] none
      [] (fun x => x) =
      .ok [("sources", PVal.s "abc,bbc"), ("page_size", PVal.i 100),
           ("page", PVal.i 1)] := rfl
  refine ⟨hex,
    (newsapi_sources_guard [("Eq", "sources", sources22)] none []).1 hex _
      (fun x => x),
    hok, ?_⟩
  exact ((newsapi_sources_guard [("Eq", "sources", "abc,bbc")] none []).2 _
    hok).1 "abc,bbc" (by simp)

end LungCancer
